/-
Verification of the timesheet conversion-and-accounting engine.

This file contains a shallow embedding of the core of the `times` crate
(`times/src/lib.rs` and `times/src/convert.rs`): the minute-precision clock
type, the identifier predicates, the span converter with its ordering
validator, the accumulator, and the billable-travel discount.  Theorems below
settle the frozen claims about this code.

Modelling conventions:
- Rust `u8`/`usize` values are modelled as `Nat`; the accumulator's `Minutes`
  buckets are modelled as `Int` because Rust's `Minutes - Minutes` is an
  unchecked `usize` subtraction (underflow is a panic/wrap in Rust, and the
  integer model makes "the subtraction underflows" visible as a negative
  bucket).
- `checked_sub` is modelled by an explicit comparison guard.
- Rust's derived lexicographic `Ord` on `Time` is modelled by `timeLt`/`timeLe`.
- `std::ptr::eq(last_travel, previous)` compares addresses of elements of the
  same vector, which is index equality; the converter passes the corresponding
  Boolean to `validate_ordering`.
- Identifiers are strings, modelled as `List Char`.
-/
import Mathlib

namespace Timesheet

/-- `Positioned<T>` from `times/src/lib.rs`: a value tagged with its source
line number. -/
structure Positioned (α : Type) where
  line : Nat
  value : α
deriving DecidableEq

/-- `Time` from `times/src/lib.rs`: hour and minute as machine naturals. -/
structure Time where
  hour : Nat
  minute : Nat
deriving DecidableEq

/-- Rust's derived lexicographic `<` on `Time { hour, minute }`. -/
def timeLt (a b : Time) : Bool :=
  decide (a.hour < b.hour) || (decide (a.hour = b.hour) && decide (a.minute < b.minute))

/-- Rust's derived lexicographic `<=` on `Time { hour, minute }`. -/
def timeLe (a b : Time) : Bool :=
  decide (a.hour < b.hour) || (decide (a.hour = b.hour) && decide (a.minute ≤ b.minute))

/-- `Time::elapsed` from `times/src/lib.rs`.  `checked_sub` failures are
modelled by comparison guards returning `none`. -/
def Time.elapsed (self o : Time) : Option Nat :=
  if self.hour < o.hour then none
  else
    let hour_minutes := (self.hour - o.hour) * 60
    if o.minute ≤ self.minute then some (hour_minutes + (self.minute - o.minute))
    else if hour_minutes < o.minute - self.minute then none
    else some (hour_minutes - (o.minute - self.minute))

/-- `Identifier` from `times/src/convert.rs`: an opaque string, as chars. -/
structure Identifier where
  chars : List Char
deriving DecidableEq

/-- The characters of `"TNG"`. -/
def tngChars : List Char := ['T', 'N', 'G']

/-- The characters of `"Fa"`. -/
def faChars : List Char := ['F', 'a']

/-- The characters of `"Ustd"`. -/
def ustdChars : List Char := ['U', 's', 't', 'd']

/-- `Identifier::is_tng`: starts with `"TNG"`. -/
def Identifier.is_tng (s : Identifier) : Bool := tngChars.isPrefixOf s.chars

/-- `Identifier::is_travel`: ends with `"Fa"`. -/
def Identifier.is_travel (s : Identifier) : Bool := faChars.isSuffixOf s.chars

/-- `Identifier::is_under_hours`: starts with `"Ustd"`. -/
def Identifier.is_under_hours (s : Identifier) : Bool := ustdChars.isPrefixOf s.chars

/-- `Topic` from `times/src/lib.rs`. -/
inductive Topic where
  | break_ : Topic
  | project (identifier : Identifier) (comment : Option (List Char)) : Topic
deriving DecidableEq

/-- `Entry` from `times/src/lib.rs` (a raw record without its line tag): a
point in time together with its topic. -/
structure RawEntry where
  time : Time
  topic : Topic
deriving DecidableEq

/-- `convert::Error` from `times/src/convert.rs`. -/
inductive Error where
  | NotTerminated (line : Nat)
  | TimeNotMultipleOfThree (line : Nat)
  | EndsBeforeItStarts (line : Nat)
  | OverlapWithPrevious (line : Nat)
  | AcrossTravelTime (line : Nat)
deriving DecidableEq

/-- `convert::Entry` from `times/src/convert.rs`: a validated span.  The Rust
field `end` is called `end_` here (`end` is a Lean keyword). -/
structure Entry where
  start : Positioned Time
  end_ : Positioned Time
  duration : Nat
  identifier : Identifier
  comment : Option (List Char)
deriving DecidableEq

/-- `validate_ordering` from `times/src/convert.rs`.  The Boolean
`last_travel_is_previous` models `std::ptr::eq(last_travel, previous)`: both
references point into the same vector, so pointer equality is index equality,
which the caller computes. -/
def validate_ordering (entry previous : Entry) (last_travel : Option Entry)
    (last_travel_is_previous : Bool) : Except Error Unit :=
  match last_travel with
  | some lt =>
    if timeLt entry.start.value lt.start.value ||
        (timeLt entry.start.value lt.end_.value && timeLt lt.end_.value entry.end_.value) then
      .error (.AcrossTravelTime entry.start.line)
    else if last_travel_is_previous then
      .ok ()
    else if timeLe previous.end_.value entry.start.value then
      .ok ()
    else
      .error (.OverlapWithPrevious entry.start.line)
  | none =>
    if timeLe previous.end_.value entry.start.value then
      .ok ()
    else
      .error (.OverlapWithPrevious entry.start.line)

/-- The validated entry built in `TryFrom<crate::Day> for Day`: start is the
current record's position, end is the peeked next record's position. -/
def mkEntry (line : Nat) (time : Time) (identifier : Identifier)
    (comment : Option (List Char)) (next : Positioned RawEntry) (duration : Nat) : Entry :=
  { start := ⟨line, time⟩
    end_ := ⟨next.line, next.value.time⟩
    duration := duration
    identifier := identifier
    comment := comment }

/-- The conversion loop of `TryFrom<crate::Day> for Day` from
`times/src/convert.rs`: scan raw records, validating and collecting spans.
`acc` is the `new_entries` vector built so far and `last_travel` the running
index of the most recent travel entry.  `iter.peek()` is modelled by
`rest.head?` (the peeked record stays in `rest` and is processed next). -/
def convertEntries : List (Positioned RawEntry) → List (Positioned Entry) → Option Nat →
    Except Error (List (Positioned Entry))
  | [], acc, _ => .ok acc
  | cur :: rest, acc, last_travel =>
    if cur.value.time.minute % 3 ≠ 0 then .error (.TimeNotMultipleOfThree cur.line)
    else
      match cur.value.topic with
      | .break_ => convertEntries rest acc last_travel
      | .project identifier comment =>
        match rest.head? with
        | none => .error (.NotTerminated cur.line)
        | some next =>
          match next.value.time.elapsed cur.value.time with
          | none => .error (.EndsBeforeItStarts cur.line)
          | some duration =>
            let new_entry := mkEntry cur.line cur.value.time identifier comment next duration
            let last_travel' :=
              if new_entry.identifier.is_travel then some acc.length else last_travel
            match acc.getLast? with
            | none => convertEntries rest (acc ++ [⟨cur.line, new_entry⟩]) last_travel'
            | some previous =>
              match validate_ordering new_entry previous.value
                  ((last_travel'.bind fun i => acc[i]?).map Positioned.value)
                  (decide (last_travel' = some (acc.length - 1))) with
              | .error e => .error e
              | .ok _ => convertEntries rest (acc ++ [⟨cur.line, new_entry⟩]) last_travel'

/-- `TravelTime` from `times/src/convert.rs`, with `Int` buckets (see the
header comment on the modelling of `Minutes` subtraction). -/
structure TravelTime where
  tng : Int
  other : Int
deriving DecidableEq

/-- `AccumulatedTime` from `times/src/convert.rs`. -/
structure AccumulatedTime where
  travel : TravelTime
  work : Int
deriving DecidableEq

/-- The `Default` values (all-zero buckets). -/
def AccumulatedTime.zero : AccumulatedTime := ⟨⟨0, 0⟩, 0⟩

/-- One step of the fold in `accumulated_time` from `times/src/convert.rs`.
The state is the accumulated totals together with the running `last_travel`
entry (captured mutable variable in the Rust closure, updated before the
bucket dispatch). -/
def accStep (st : AccumulatedTime × Option Entry) (entry : Entry) :
    AccumulatedTime × Option Entry :=
  let travel := st.1.travel
  let work := st.1.work
  let duration : Int := (entry.duration : Int)
  let last_travel := if entry.identifier.is_travel then some entry else st.2
  let acc :=
    if entry.identifier.is_under_hours then
      ({ travel := travel, work := work } : AccumulatedTime)
    else if entry.identifier.is_travel then
      let travel :=
        if entry.identifier.is_tng then
          ({ tng := travel.tng + duration, other := travel.other } : TravelTime)
        else
          ({ tng := travel.tng, other := travel.other + duration } : TravelTime)
      ({ travel := travel, work := work } : AccumulatedTime)
    else
      match last_travel with
      | some t =>
        if timeLe t.start.value entry.start.value && timeLe entry.end_.value t.end_.value then
          let travel :=
            if t.identifier.is_tng then
              ({ tng := travel.tng - duration, other := travel.other } : TravelTime)
            else
              ({ tng := travel.tng, other := travel.other - duration } : TravelTime)
          ({ travel := travel, work := work + duration } : AccumulatedTime)
        else
          ({ travel := travel, work := work + duration } : AccumulatedTime)
      | none => ({ travel := travel, work := work + duration } : AccumulatedTime)
  (acc, last_travel)

/-- `accumulated_time` from `times/src/convert.rs`: fold the validated
entries starting from the all-zero totals with no travel entry seen. -/
def accumulated_time (entries : List Entry) : AccumulatedTime :=
  (entries.foldl accStep (AccumulatedTime.zero, none)).1

/-- The claim-relevant part of `TryFrom<crate::Day> for Day`: convert the raw
records of one day and accumulate the validated entries.  (The source also
passes through the day's comments and date unchanged; they play no role in
validation or accounting.) -/
def dayTryFrom (entries : List (Positioned RawEntry)) :
    Except Error (List (Positioned Entry) × AccumulatedTime) :=
  match convertEntries entries [] none with
  | .error e => .error e
  | .ok es => .ok (es, accumulated_time (es.map Positioned.value))

/-- `billable_travel_time` from `times/src/convert.rs`: the travel discount.
`checked_sub(45)` is modelled by the comparison guard. -/
def billable_travel_time (minutes : Nat) : Nat :=
  if minutes < 45 then 0
  else min ((minutes - 45) * 3 / 4) (6 * 60)

/-! ### Specification-side helper definitions

These do not come from the source; they are the vocabulary in which the
claims' properties are stated and the invariants are proved. -/

/-- A time as a total count of minutes (meaningful when `minute < 60`). -/
def mins (t : Time) : Int := (t.hour : Int) * 60 + (t.minute : Int)

/-- Facts about a single validated entry used by the accumulator invariant:
its duration is the elapsed time from start to end, both of its clock times
have an in-range minute field, and its identifier is not simultaneously a
travel and an under-hours identifier. -/
def entryOK (e : Entry) : Prop :=
  e.end_.value.elapsed e.start.value = some e.duration ∧
  e.start.value.minute < 60 ∧ e.end_.value.minute < 60 ∧
  ¬(e.identifier.is_travel = true ∧ e.identifier.is_under_hours = true)

/-- The check `validate_ordering` performs on one candidate, phrased against
the previous accepted entry and the most recent travel entry of the already
accepted prefix.  When the candidate is itself a travel entry the converter
has already moved `last_travel` to the candidate's not-yet-pushed index, so
the lookup yields no entry; the pointer-equality flag is index equality,
which holds exactly when the previous accepted entry is itself the most
recent travel entry (and the candidate is not travel). -/
def stepOK (prev? lt : Option Entry) (e : Entry) : Bool :=
  match prev? with
  | none => true
  | some p =>
    match validate_ordering e p (if e.identifier.is_travel then none else lt)
        (!e.identifier.is_travel && p.identifier.is_travel) with
    | .ok _ => true
    | .error _ => false

/-- Every entry of the list passes `stepOK` against the state threaded
through the conversion: previous accepted entry and most recent travel. -/
def chainOK : Option Entry → Option Entry → List Entry → Bool
  | _, _, [] => true
  | prev?, lt, e :: rest =>
    stepOK prev? lt e &&
      chainOK (some e) (if e.identifier.is_travel then some e else lt) rest

/-- The converter's `last_travel` index is the index of the last travel entry
of the accepted prefix (or `none` when the prefix has no travel entry). -/
def ltInv (acc : List (Positioned Entry)) (lt : Option Nat) : Prop :=
  match lt with
  | none => ∀ pe ∈ acc, pe.value.identifier.is_travel = false
  | some i =>
    ∃ pe, acc[i]? = some pe ∧ pe.value.identifier.is_travel = true ∧
      ∀ qe ∈ acc.drop (i + 1), qe.value.identifier.is_travel = false

/-- What the converter guarantees about an entry it builds from the raw
records: the duration is the elapsed time, the start and end clock times are
times of raw records, and the identifier is the identifier of a project
record. -/
def fromRaws (raws : List (Positioned RawEntry)) (e : Entry) : Prop :=
  e.end_.value.elapsed e.start.value = some e.duration ∧
  (∃ r ∈ raws, r.value.time = e.start.value) ∧
  (∃ r ∈ raws, r.value.time = e.end_.value) ∧
  (∃ r ∈ raws, ∃ c, r.value.topic = .project e.identifier c)

/-- "No nested containment": the accumulator's containment-reclassification
branch never fires, i.e. no entry that reaches that branch (neither travel
nor under-hours) lies fully inside the most recent travel span. -/
def noNestedContainment : Option Entry → List Entry → Bool
  | _, [] => true
  | lt, e :: rest =>
    let lt' := if e.identifier.is_travel then some e else lt
    let ok :=
      if e.identifier.is_under_hours || e.identifier.is_travel then true
      else
        match lt' with
        | some t => !(timeLe t.start.value e.start.value && timeLe e.end_.value t.end_.value)
        | none => true
    ok && noNestedContainment lt' rest

/-- Total duration of the entries satisfying a predicate. -/
def durationSum (p : Entry → Bool) (entries : List Entry) : Int :=
  ((entries.filter p).map fun e => (e.duration : Int)).sum

/-- All three buckets of an accumulated total are non-negative. -/
def nonneg3 (a : AccumulatedTime) : Prop :=
  0 ≤ a.work ∧ 0 ≤ a.travel.tng ∧ 0 ≤ a.travel.other

/-- The travel bucket an entry's minutes go to (by `is_tng`). -/
def bucketOf (t : Entry) (tv : TravelTime) : Int :=
  if t.identifier.is_tng then tv.tng else tv.other

/-- Lower bound on the start minute of the next entry that could still be
reclassified into the travel span `t`: the travel span's own start while the
travel entry is the previous accepted entry, the previous entry's end
otherwise. -/
def lbOf (prev? : Option Entry) (t : Entry) : Int :=
  match prev? with
  | some p => if p.identifier.is_travel then mins t.start.value else mins p.end_.value
  | none => mins t.start.value

/-- Invariant carried through the accumulator fold: all buckets are
non-negative; the previous entry's end minute is in range; and when a travel
span `t` is current, its bucket still holds at least the minutes between the
reclassification frontier and the end of `t`. -/
def J (prev? lt : Option Entry) (a : AccumulatedTime) : Prop :=
  nonneg3 a ∧
  (∀ p, prev? = some p → p.end_.value.minute < 60) ∧
  (∀ t, lt = some t →
    (∃ p, prev? = some p) ∧ entryOK t ∧ t.identifier.is_travel = true ∧
      mins t.end_.value - lbOf prev? t ≤ bucketOf t a.travel)

/-! ### Concrete identifiers, records and entries used in tests below -/

/-- The identifier `"TNG"`. -/
def idTNG : Identifier := ⟨['T', 'N', 'G']⟩

/-- The identifier `"TNGFa"`. -/
def idTNGFa : Identifier := ⟨['T', 'N', 'G', 'F', 'a']⟩

/-- The identifier `"AAFa"`. -/
def idAAFa : Identifier := ⟨['A', 'A', 'F', 'a']⟩

/-- The identifier `"AA"`. -/
def idAA : Identifier := ⟨['A', 'A']⟩

/-- The identifier `"UstdFa"`: it both starts with `"Ustd"` and ends with
`"Fa"`, so it is simultaneously an under-hours and a travel identifier. -/
def idUstdFa : Identifier := ⟨['U', 's', 't', 'd', 'F', 'a']⟩

/-- A raw record at a line, clock time and topic. -/
def rawRec (line hour minute : Nat) (topic : Topic) : Positioned RawEntry :=
  ⟨line, ⟨⟨hour, minute⟩, topic⟩⟩

/-- A validated entry (line tags zero, no comment), as built by the tests of
`times/src/convert.rs`. -/
def testEntry (h1 m1 h2 m2 : Nat) (i : Identifier) (d : Nat) : Entry :=
  ⟨⟨0, ⟨h1, m1⟩⟩, ⟨0, ⟨h2, m2⟩⟩, d, i, none⟩

/-- The entry list of accumulation scenario C (nested containment). -/
def scenarioC : List Entry :=
  [testEntry 3 0 4 0 idTNG 60, testEntry 4 0 4 30 idTNGFa 30,
   testEntry 4 0 4 10 idTNG 10, testEntry 4 15 4 20 idTNG 5,
   testEntry 4 20 4 30 idTNG 10, testEntry 5 0 5 30 idAAFa 30,
   testEntry 5 0 5 15 idAA 15]

/-- The entry list of accumulation scenario A (simple travel), a day with a
travel entry and no nested containment. -/
def scenarioA : List (Positioned RawEntry) :=
  [rawRec 1 0 0 (.project idTNG none), rawRec 2 1 0 (.project idTNGFa none),
   rawRec 3 1 30 (.project idTNG none), rawRec 4 2 30 .break_]

/-- A day whose travel span has the under-hours travel identifier `"UstdFa"`
and which contains a nested entry: it validates, yet accumulation subtracts
from a bucket to which nothing was ever added. -/
def dayUstdTravel : List (Positioned RawEntry) :=
  [rawRec 1 4 0 (.project idUstdFa none), rawRec 2 5 0 .break_,
   rawRec 3 4 12 (.project idAA none), rawRec 4 4 30 .break_]

/-- A day whose record times are representable in the `Time` type (minute
fields are machine naturals, only divisibility by three is validated) but not
in-range: the minute 900 makes lexicographic comparison disagree with
total-minute arithmetic, so a "contained" entry is longer than the travel
span containing it. -/
def dayWildMinute : List (Positioned RawEntry) :=
  [rawRec 1 4 0 (.project idTNGFa none), rawRec 2 5 0 .break_,
   rawRec 3 4 6 (.project idAA none), rawRec 4 4 900 .break_]

/-- A day with a zero-duration span: a project record closed by a break
record carrying the same clock time. -/
def dayZeroSpan : List (Positioned RawEntry) :=
  [rawRec 1 12 0 (.project idAA none), rawRec 2 12 0 .break_]

/-- A day with `"UstdFa"` as its only entry: validated, no containment, but
the entry is ignored by the accumulator while being a travel entry. -/
def dayUstdOnly : List (Positioned RawEntry) :=
  [rawRec 1 4 0 (.project idUstdFa none), rawRec 2 5 0 .break_]

/-- A one-record day whose trailing project record has minute 1. -/
def dayBadMinuteTail : List (Positioned RawEntry) :=
  [rawRec 1 4 1 (.project idAA none)]

/-- The validated entries of scenario A, as produced by the converter. -/
def scenarioAConverted : List (Positioned Entry) :=
  [⟨1, ⟨⟨1, ⟨0, 0⟩⟩, ⟨2, ⟨1, 0⟩⟩, 60, idTNG, none⟩⟩,
   ⟨2, ⟨⟨2, ⟨1, 0⟩⟩, ⟨3, ⟨1, 30⟩⟩, 30, idTNGFa, none⟩⟩,
   ⟨3, ⟨⟨3, ⟨1, 30⟩⟩, ⟨4, ⟨2, 30⟩⟩, 60, idTNG, none⟩⟩]

/-- A topic is free of travel/under-hours identifier overlap. -/
def noTravelUnderHours (t : Topic) : Bool :=
  match t with
  | .break_ => true
  | .project identifier _ => !(identifier.is_travel && identifier.is_under_hours)

/-! ### Basic lemmas about times and elapsed -/

theorem timeLt_iff {a b : Time} :
    timeLt a b = true ↔ a.hour < b.hour ∨ (a.hour = b.hour ∧ a.minute < b.minute) := by
  simp [timeLt]

theorem timeLe_iff {a b : Time} :
    timeLe a b = true ↔ a.hour < b.hour ∨ (a.hour = b.hour ∧ a.minute ≤ b.minute) := by
  simp [timeLe]

theorem timeLt_false_iff {a b : Time} : timeLt a b = false ↔ timeLe b a = true := by
  simp [timeLt, timeLe]
  omega

theorem timeLe_false_iff {a b : Time} : timeLe a b = false ↔ timeLt b a = true := by
  simp [timeLt, timeLe]
  omega

/-- Lexicographic order agrees with total-minute order when the smaller
side's minute field is in range. -/
theorem mins_le_of_timeLe {a b : Time} (h : timeLe a b = true) (hm : a.minute < 60) :
    mins a ≤ mins b := by
  rcases timeLe_iff.mp h with h' | ⟨h1, h2⟩ <;> simp only [mins] <;> omega

/-- `elapsed` computes exactly the difference of total minutes. -/
theorem elapsed_mins {b a : Time} {d : Nat} (h : Time.elapsed b a = some d) :
    mins a + (d : Int) = mins b := by
  unfold Time.elapsed at h
  split at h
  · exact absurd h (by simp)
  · dsimp only at h
    split at h
    · injection h with h'
      simp only [mins]
      omega
    · split at h
      · exact absurd h (by simp)
      · injection h with h'
        simp only [mins]
        omega

/-- A span with a defined elapsed time starts no later than it ends, in the
lexicographic order. -/
theorem timeLe_of_elapsed {b a : Time} {d : Nat} (h : Time.elapsed b a = some d) :
    timeLe a b = true := by
  unfold Time.elapsed at h
  rw [timeLe_iff]
  split at h
  · exact absurd h (by simp)
  · dsimp only at h
    split at h
    · omega
    · split at h
      · exact absurd h (by simp)
      · omega

/-! ### Claim C4: the discount formula and its sample values -/

/-- C4: for every non-negative integer input, `billable_travel_time` is 0 at
or below 45 minutes and `min ((n - 45) * 3 / 4) 360` above, with truncating
integer arithmetic; in particular it maps 20 to 0, 285 to 180 and 540
to 360. -/
theorem C4_discount_formula :
    (∀ n : Nat, (n ≤ 45 → billable_travel_time n = 0) ∧
      (45 < n → billable_travel_time n = min ((n - 45) * 3 / 4) 360)) ∧
    billable_travel_time 20 = 0 ∧ billable_travel_time 285 = 180 ∧
    billable_travel_time 540 = 360 := by
  refine ⟨fun n => ⟨fun h => ?_, fun h => ?_⟩, by decide, by decide, by decide⟩
  · unfold billable_travel_time
    split
    · rfl
    · have hn : n = 45 := by omega
      subst hn
      decide
  · unfold billable_travel_time
    split
    · omega
    · rfl

/-- Witness for C4 at concrete inputs. -/
theorem C4_witness : billable_travel_time 45 = 0 ∧ billable_travel_time 46 = min 0 360 :=
  ⟨(C4_discount_formula.1 45).1 (by decide),
   by
     have h := (C4_discount_formula.1 46).2 (by decide)
     simpa using h⟩

/-! ### Claim C9: the discount is monotone and capped at 360 -/

/-- C9: `billable_travel_time` is monotonically non-decreasing and never
exceeds 360. -/
theorem C9_discount_monotone_capped :
    ∀ a b : Nat, (a ≤ b → billable_travel_time a ≤ billable_travel_time b) ∧
      billable_travel_time a ≤ 360 := by
  have hcap : ∀ n : Nat, billable_travel_time n ≤ 360 := by
    intro n
    unfold billable_travel_time
    split
    · omega
    · exact le_trans (min_le_right _ _) (by norm_num)
  intro a b
  refine ⟨fun hab => ?_, hcap a⟩
  by_cases h1 : a < 45
  · simp only [billable_travel_time, if_pos h1]
    exact Nat.zero_le _
  · have h2 : ¬b < 45 := by omega
    simp only [billable_travel_time, if_neg h1, if_neg h2]
    exact min_le_min
      (Nat.div_le_div_right (Nat.mul_le_mul_right 3 (Nat.sub_le_sub_right hab 45))) le_rfl

/-- Witness for C9 at concrete inputs. -/
theorem C9_witness :
    billable_travel_time 100 ≤ billable_travel_time 200 ∧ billable_travel_time 100 ≤ 360 :=
  ⟨(C9_discount_monotone_capped 100 200).1 (by decide),
   (C9_discount_monotone_capped 100 200).2⟩

/-! ### Claim C8: the `elapsed` function -/

/-- C8: for in-range clock times, `elapsed` is `none` exactly when the hours
regress or the hours agree and the minutes regress; otherwise it returns the
signed hour difference times 60 plus the signed minute difference. -/
theorem C8_elapsed_spec :
    ∀ s o : Time, s.hour < 24 → s.minute < 60 → o.hour < 24 → o.minute < 60 →
      (Time.elapsed s o = none ↔
        (s.hour < o.hour ∨ (s.hour = o.hour ∧ s.minute < o.minute))) ∧
      ∀ d : Nat, Time.elapsed s o = some d →
        (d : Int) = ((s.hour : Int) - (o.hour : Int)) * 60 +
          ((s.minute : Int) - (o.minute : Int)) := by
  intro s o hs1 hs2 ho1 ho2
  constructor
  · unfold Time.elapsed
    split
    · simp
      omega
    · dsimp only
      split
      · simp
        omega
      · split
        · simp
          omega
        · simp
          omega
  · intro d h
    have h' := elapsed_mins h
    simp only [mins] at h'
    omega

/-- Witness for C8: elapsed from 11:05 to 12:10 is 65 minutes. -/
theorem C8_witness :
    (65 : Int) = ((12 : Int) - (11 : Int)) * 60 + ((10 : Int) - (5 : Int)) :=
  (C8_elapsed_spec ⟨12, 10⟩ ⟨11, 5⟩ (by decide) (by decide) (by decide) (by decide)).2 65 rfl

/-! ### Claim C5: nested-containment accumulation scenario -/

/-- C5: accumulating the scenario-C entry list yields `travel.tng = 5`,
`travel.other = 15` and `work = 100`. -/
theorem C5_scenario_c_accumulation :
    accumulated_time scenarioC = ⟨⟨5, 15⟩, 100⟩ := rfl

/-! ### Claim C1: the ordering validator's decision logic -/

/-- Unfolding equation for `validate_ordering` with a travel span present. -/
theorem validate_ordering_some_eq (entry previous t : Entry) (flag : Bool) :
    validate_ordering entry previous (some t) flag =
      if timeLt entry.start.value t.start.value ||
          (timeLt entry.start.value t.end_.value && timeLt t.end_.value entry.end_.value) then
        .error (.AcrossTravelTime entry.start.line)
      else if flag then .ok ()
      else if timeLe previous.end_.value entry.start.value then .ok ()
      else .error (.OverlapWithPrevious entry.start.line) := rfl

/-- Unfolding equation for `validate_ordering` with no travel span. -/
theorem validate_ordering_none_eq (entry previous : Entry) (flag : Bool) :
    validate_ordering entry previous none flag =
      if timeLe previous.end_.value entry.start.value then .ok ()
      else .error (.OverlapWithPrevious entry.start.line) := rfl

/-- C1: against a previous accepted entry and an optional most-recent travel
span, `validate_ordering` rejects with `AcrossTravelTime` exactly when the
candidate starts strictly before the travel span starts, or starts strictly
before the travel span ends while ending strictly after it; when that does
not apply and the travel span is the same entry as the previous one (pointer
equality, passed as a flag), the candidate is accepted with no further check;
otherwise acceptance is exactly `previous.end <= candidate.start`, the
failure being `OverlapWithPrevious`. -/
theorem C1_validate_ordering_spec :
    ∀ (entry previous t : Entry) (flag : Bool),
      (validate_ordering entry previous (some t) flag =
          .error (.AcrossTravelTime entry.start.line) ↔
        (timeLt entry.start.value t.start.value = true ∨
          (timeLt entry.start.value t.end_.value = true ∧
            timeLt t.end_.value entry.end_.value = true))) ∧
      ((timeLt entry.start.value t.start.value = false ∧
        (timeLt entry.start.value t.end_.value = false ∨
          timeLt t.end_.value entry.end_.value = false)) → flag = true →
        validate_ordering entry previous (some t) flag = .ok ()) ∧
      ((timeLt entry.start.value t.start.value = false ∧
        (timeLt entry.start.value t.end_.value = false ∨
          timeLt t.end_.value entry.end_.value = false)) → flag = false →
        (validate_ordering entry previous (some t) flag = .ok () ↔
          timeLe previous.end_.value entry.start.value = true) ∧
        (timeLe previous.end_.value entry.start.value = false →
          validate_ordering entry previous (some t) flag =
            .error (.OverlapWithPrevious entry.start.line))) ∧
      (validate_ordering entry previous none flag = .ok () ↔
        timeLe previous.end_.value entry.start.value = true) ∧
      (timeLe previous.end_.value entry.start.value = false →
        validate_ordering entry previous none flag =
          .error (.OverlapWithPrevious entry.start.line)) := by
  intro entry previous t flag
  rcases h1 : timeLt entry.start.value t.start.value <;>
    rcases h2 : timeLt entry.start.value t.end_.value <;>
      rcases h3 : timeLt t.end_.value entry.end_.value <;>
        rcases h4 : timeLe previous.end_.value entry.start.value <;>
          cases flag <;>
            simp [validate_ordering_some_eq, validate_ordering_none_eq, h1, h2, h3, h4]

/-- Witness for C1: pointer-equality shortcut accepts an entry fully inside
the travel span that is also the previous entry. -/
theorem C1_witness :
    validate_ordering (testEntry 1 30 2 0 idTNG 30) (testEntry 1 0 2 30 idTNGFa 90)
      (some (testEntry 1 0 2 30 idTNGFa 90)) true = .ok () :=
  (C1_validate_ordering_spec (testEntry 1 30 2 0 idTNG 30) (testEntry 1 0 2 30 idTNGFa 90)
    (testEntry 1 0 2 30 idTNGFa 90) true).2.1 ⟨by decide, Or.inr (by decide)⟩ rfl

/-! ### Claim C10: travel candidates see no travel span during validation -/

/-- C10: when the candidate is itself a travel entry, the converter moves
`last_travel` to the candidate's own not-yet-pushed index before the ordering
check, so the travel lookup yields no entry (`acc[acc.length]? = none`) and a
travel candidate with a preceding accepted entry is validated under the plain
sequential rule: accepted and appended when `previous.end <= candidate.start`,
rejected with `OverlapWithPrevious` otherwise. -/
theorem C10_travel_candidate_plain_rule :
    ∀ (cur : Positioned RawEntry) (identifier : Identifier) (comment : Option (List Char))
      (rest : List (Positioned RawEntry)) (next : Positioned RawEntry) (duration : Nat)
      (acc : List (Positioned Entry)) (lt : Option Nat) (previous : Positioned Entry),
      cur.value.topic = .project identifier comment →
      cur.value.time.minute % 3 = 0 →
      rest.head? = some next →
      next.value.time.elapsed cur.value.time = some duration →
      identifier.is_travel = true →
      acc.getLast? = some previous →
      acc[acc.length]? = none ∧
      convertEntries (cur :: rest) acc lt =
        if timeLe previous.value.end_.value cur.value.time then
          convertEntries rest
            (acc ++ [⟨cur.line, mkEntry cur.line cur.value.time identifier comment next duration⟩])
            (some acc.length)
        else .error (.OverlapWithPrevious cur.line) := by
  intro cur identifier comment rest next duration acc lt previous
  intro htopic hmin hhead helapsed htravel hlast
  have hnone : acc[acc.length]? = none := List.getElem?_eq_none le_rfl
  refine ⟨hnone, ?_⟩
  have hacc : acc ≠ [] := by
    intro h
    rw [h] at hlast
    exact absurd hlast (by simp)
  simp only [convertEntries, hmin, htopic, hhead, helapsed, hlast]
  simp only [mkEntry, htravel, if_pos rfl, hnone]
  simp only [Option.bind_none, Option.map_none, if_true]
  unfold validate_ordering
  rcases h4 : timeLe previous.value.end_.value cur.value.time <;> simp [h4]

/-- Witness for C10: a travel candidate following an accepted entry, at a
concrete day state. -/
theorem C10_witness :
    ([⟨1, testEntry 0 0 1 0 idTNG 60⟩] : List (Positioned Entry))[1]? = none ∧
    convertEntries [rawRec 3 1 0 (.project idTNGFa none), rawRec 4 1 30 .break_]
        [⟨1, testEntry 0 0 1 0 idTNG 60⟩] none =
      if timeLe (testEntry 0 0 1 0 idTNG 60).end_.value ⟨1, 0⟩ then
        convertEntries [rawRec 4 1 30 .break_]
          ([⟨1, testEntry 0 0 1 0 idTNG 60⟩] ++
            [⟨3, mkEntry 3 ⟨1, 0⟩ idTNGFa none (rawRec 4 1 30 .break_) 30⟩])
          (some 1)
      else .error (.OverlapWithPrevious 3) :=
  C10_travel_candidate_plain_rule (rawRec 3 1 0 (.project idTNGFa none)) idTNGFa none
    [rawRec 4 1 30 .break_] (rawRec 4 1 30 .break_) 30
    [⟨1, testEntry 0 0 1 0 idTNG 60⟩] none ⟨1, testEntry 0 0 1 0 idTNG 60⟩
    rfl rfl rfl rfl (by decide) rfl

/-! ### Counterexamples refuting claims C2, C3, C6, C7 as stated -/

/-- Counterexample to C2 as stated.  Two successfully validated raw-record
days on which accumulation drives a travel bucket negative: `dayUstdTravel`
(the travel span's identifier `"UstdFa"` is also under-hours, so it is
ignored by the accumulator while still acting as the most recent travel span)
yields `travel.other = -18`, and `dayWildMinute` (a record minute of 900,
accepted because only divisibility by three is validated, makes a "contained"
entry longer than its travel span) yields `travel.tng = -834`. -/
theorem C2_counterexample :
    ((dayTryFrom dayUstdTravel).map fun p => p.2.travel.other) = .ok (-18) ∧
    ((dayTryFrom dayWildMinute).map fun p => p.2.travel.tng) = .ok (-834) ∧
    (-18 : Int) < 0 ∧ (-834 : Int) < 0 :=
  ⟨rfl, rfl, by decide, by decide⟩

/-- Counterexample to C3 as stated.  A project record closed by a break
record at the same clock time validates successfully (it is not rejected with
`EndsBeforeItStarts`), producing an entry with `start = end` and duration 0,
so `start < end` does not hold strictly. -/
theorem C3_counterexample :
    convertEntries dayZeroSpan [] none =
      .ok [⟨1, ⟨⟨1, ⟨12, 0⟩⟩, ⟨2, ⟨12, 0⟩⟩, 0, idAA, none⟩⟩] ∧
    timeLt (⟨12, 0⟩ : Time) ⟨12, 0⟩ = false :=
  ⟨rfl, rfl⟩

/-- Counterexample to C6 as stated.  The day whose only entry carries the
identifier `"UstdFa"` validates with no nested containment, but the entry is
a travel entry (it ends with `"Fa"`) that the accumulator ignores entirely
(it starts with `"Ustd"`): the bucket total is 0 while the claim's right-hand
side counts the entry's 60 travel minutes. -/
theorem C6_counterexample :
    ((dayTryFrom dayUstdOnly).map fun p =>
      (p.2.work + p.2.travel.tng + p.2.travel.other,
        durationSum (fun e => !e.identifier.is_travel && !e.identifier.is_under_hours)
            (p.1.map Positioned.value) +
          durationSum (fun e => e.identifier.is_travel) (p.1.map Positioned.value),
        noNestedContainment none (p.1.map Positioned.value))) = .ok (0, 60, true) ∧
    (0 : Int) ≠ 60 :=
  ⟨rfl, by decide⟩

/-- Counterexample to C7 as stated.  A day whose final (and only) record is a
project record with no following record, but whose minute is not a multiple
of three: validation fails with `TimeNotMultipleOfThree`, not
`NotTerminated`, because the minute check precedes the termination check. -/
theorem C7_counterexample :
    convertEntries dayBadMinuteTail [] none = .error (.TimeNotMultipleOfThree 1) ∧
    Error.TimeNotMultipleOfThree 1 ≠ Error.NotTerminated 1 :=
  ⟨rfl, by decide⟩

/-! ### Claim C7 (amended): a trailing project record always makes the day
invalid -/

/-- C7 (amended): for every raw-record day whose final record is a project
record (so the record has no following record to close its span), validation
fails with some error, from any converter state; when every earlier check
passes, that error is `NotTerminated` at the record's line, but an earlier
failing check (for example the record's own minute check) reports its own
error first. -/
theorem C7_amended_always_fails :
    ∀ (raws : List (Positioned RawEntry)) (acc : List (Positioned Entry)) (lt : Option Nat)
      (r : Positioned RawEntry) (identifier : Identifier) (comment : Option (List Char)),
      raws.getLast? = some r → r.value.topic = .project identifier comment →
      ∃ err, convertEntries raws acc lt = .error err := by
  intro raws
  induction raws with
  | nil =>
    intro acc lt r i c h _
    exact absurd h (by simp)
  | cons cur rest ih =>
    intro acc lt r i c hlast htopic
    by_cases hmin : cur.value.time.minute % 3 ≠ 0
    · refine ⟨.TimeNotMultipleOfThree cur.line, ?_⟩
      simp only [convertEntries, if_pos hmin]
    · cases rest with
      | nil =>
        have hcur : cur = r := by
          simp only [List.getLast?_singleton, Option.some.injEq] at hlast
          exact hlast
        have htopic' : cur.value.topic = .project i c := by
          rw [hcur]
          exact htopic
        refine ⟨.NotTerminated cur.line, ?_⟩
        simp only [convertEntries, if_neg hmin, htopic', List.head?_nil]
      | cons b bs =>
        have hrest : (b :: bs).getLast? = some r := by
          rw [List.getLast?_cons_cons] at hlast
          exact hlast
        cases htop : cur.value.topic with
        | break_ =>
          obtain ⟨err, herr⟩ := ih acc lt r i c hrest htopic
          refine ⟨err, ?_⟩
          simp only [convertEntries, if_neg hmin, htop]
          exact herr
        | project id cm =>
          cases helapsed : b.value.time.elapsed cur.value.time with
          | none =>
            refine ⟨.EndsBeforeItStarts cur.line, ?_⟩
            simp only [convertEntries, if_neg hmin, htop, List.head?_cons, helapsed]
          | some d =>
            cases hacc : acc.getLast? with
            | none =>
              obtain ⟨err, herr⟩ := ih _ _ r i c hrest htopic
              refine ⟨err, ?_⟩
              simp only [convertEntries, if_neg hmin, htop, List.head?_cons, helapsed, hacc]
              exact herr
            | some previous =>
              cases hvo : validate_ordering
                  (mkEntry cur.line cur.value.time id cm b d) previous.value
                  (((if (mkEntry cur.line cur.value.time id cm b d).identifier.is_travel then
                        some acc.length else lt).bind fun idx => acc[idx]?).map
                    Positioned.value)
                  (decide ((if (mkEntry cur.line cur.value.time id cm b d).identifier.is_travel
                      then some acc.length else lt) = some (acc.length - 1))) with
              | error e =>
                refine ⟨e, ?_⟩
                simp only [convertEntries, if_neg hmin, htop, List.head?_cons, helapsed, hacc,
                  hvo]
              | ok u =>
                obtain ⟨err, herr⟩ := ih _ _ r i c hrest htopic
                refine ⟨err, ?_⟩
                simp only [convertEntries, if_neg hmin, htop, List.head?_cons, helapsed, hacc,
                  hvo]
                exact herr

/-! ### Soundness of the converter: provenance of validated entries -/

/-- `fromRaws` is monotone in the record list. -/
theorem fromRaws_cons {r : Positioned RawEntry} {raws : List (Positioned RawEntry)} {e : Entry}
    (h : fromRaws raws e) : fromRaws (r :: raws) e := by
  obtain ⟨h1, ⟨r1, hr1, he1⟩, ⟨r2, hr2, he2⟩, ⟨r3, hr3, c3, he3⟩⟩ := h
  exact ⟨h1, ⟨r1, List.mem_cons_of_mem r hr1, he1⟩, ⟨r2, List.mem_cons_of_mem r hr2, he2⟩,
    ⟨r3, List.mem_cons_of_mem r hr3, c3, he3⟩⟩

/-- Every entry in a successful conversion's output was already accepted or
was built from the raw records: its duration is the elapsed time from start
to end, its clock times are record times, and its identifier is a project
record's identifier. -/
theorem convert_fromRaws :
    ∀ (raws : List (Positioned RawEntry)) (acc : List (Positioned Entry)) (lt : Option Nat)
      (L : List (Positioned Entry)),
      convertEntries raws acc lt = .ok L →
      ∀ pe ∈ L, pe ∈ acc ∨ fromRaws raws pe.value := by
  intro raws
  induction raws with
  | nil =>
    intro acc lt L h pe hpe
    simp only [convertEntries, Except.ok.injEq] at h
    subst h
    exact Or.inl hpe
  | cons cur rest ih =>
    intro acc lt L h pe hpe
    by_cases hmin : cur.value.time.minute % 3 ≠ 0
    · simp only [convertEntries, if_pos hmin] at h
      exact Except.noConfusion h
    · cases htop : cur.value.topic with
      | break_ =>
        simp only [convertEntries, if_neg hmin, htop] at h
        rcases ih acc lt L h pe hpe with h' | h'
        · exact Or.inl h'
        · exact Or.inr (fromRaws_cons h')
      | project id cm =>
        cases hhead : rest.head? with
        | none =>
          simp only [convertEntries, if_neg hmin, htop, hhead] at h
          exact Except.noConfusion h
        | some next =>
          have hnext : next ∈ rest := List.mem_of_mem_head? (by simp [hhead])
          cases helapsed : next.value.time.elapsed cur.value.time with
          | none =>
            simp only [convertEntries, if_neg hmin, htop, hhead, helapsed] at h
            exact Except.noConfusion h
          | some d =>
            have hfrom : fromRaws (cur :: rest) (mkEntry cur.line cur.value.time id cm next d) :=
              ⟨helapsed, ⟨cur, List.mem_cons_self cur rest, rfl⟩,
                ⟨next, List.mem_cons_of_mem cur hnext, rfl⟩,
                ⟨cur, List.mem_cons_self cur rest, cm, htop⟩⟩
            have hstep : ∀ lt₂,
                convertEntries rest (acc ++ [⟨cur.line, mkEntry cur.line cur.value.time id cm next d⟩]) lt₂ = .ok L →
                pe ∈ acc ∨ fromRaws (cur :: rest) pe.value := by
              intro lt₂ h₂
              rcases ih _ lt₂ L h₂ pe hpe with h' | h'
              · rcases List.mem_append.mp h' with h'' | h''
                · exact Or.inl h''
                · have : pe = ⟨cur.line, mkEntry cur.line cur.value.time id cm next d⟩ := by
                    simpa using h''
                  subst this
                  exact Or.inr hfrom
              · exact Or.inr (fromRaws_cons h')
            cases hacc : acc.getLast? with
            | none =>
              simp only [convertEntries, if_neg hmin, htop, hhead, helapsed, hacc] at h
              exact hstep _ h
            | some previous =>
              cases hvo : validate_ordering
                  (mkEntry cur.line cur.value.time id cm next d) previous.value
                  (((if (mkEntry cur.line cur.value.time id cm next d).identifier.is_travel then
                        some acc.length else lt).bind fun idx => acc[idx]?).map
                    Positioned.value)
                  (decide ((if (mkEntry cur.line cur.value.time id cm next d).identifier.is_travel
                      then some acc.length else lt) = some (acc.length - 1))) with
              | error e =>
                simp only [convertEntries, if_neg hmin, htop, hhead, helapsed, hacc, hvo] at h
                exact Except.noConfusion h
              | ok u =>
                simp only [convertEntries, if_neg hmin, htop, hhead, helapsed, hacc, hvo] at h
                exact hstep _ h

/-- Witness for C7 (amended) at a concrete one-record day. -/
theorem C7_witness :
    ∃ err, convertEntries [rawRec 1 4 0 (.project idAA none)] [] none = .error err :=
  C7_amended_always_fails [rawRec 1 4 0 (.project idAA none)] [] none
    (rawRec 1 4 0 (.project idAA none)) idAA none rfl rfl

/-! ### Claim C3 (amended): validated spans run forward, undefined spans are
rejected -/

/-- C3 (amended): for every successfully validated day, every validated
entry's duration is the defined elapsed time from its start to its end, so
its start is less than or equal to its end — not strictly: a span whose end
equals its start (duration 0) is accepted.  A candidate span whose elapsed
time is undefined (its end is strictly earlier in the same-day order) is
rejected with `EndsBeforeItStarts` carrying the candidate's start line. -/
theorem C3_amended_start_le_end :
    (∀ (raws : List (Positioned RawEntry)) (es : List (Positioned Entry))
      (times : AccumulatedTime),
      dayTryFrom raws = .ok (es, times) →
      ∀ pe ∈ es,
        pe.value.end_.value.elapsed pe.value.start.value = some pe.value.duration ∧
        timeLe pe.value.start.value pe.value.end_.value = true) ∧
    ∀ (cur : Positioned RawEntry) (identifier : Identifier) (comment : Option (List Char))
      (rest : List (Positioned RawEntry)) (next : Positioned RawEntry)
      (acc : List (Positioned Entry)) (lt : Option Nat),
      cur.value.topic = .project identifier comment →
      cur.value.time.minute % 3 = 0 →
      rest.head? = some next →
      next.value.time.elapsed cur.value.time = none →
      convertEntries (cur :: rest) acc lt = .error (.EndsBeforeItStarts cur.line) := by
  constructor
  · intro raws es times h pe hpe
    have hconv : convertEntries raws [] none = .ok es := by
      unfold dayTryFrom at h
      cases hc : convertEntries raws [] none with
      | error e =>
        rw [hc] at h
        exact Except.noConfusion h
      | ok es' =>
        rw [hc] at h
        simp only [Except.ok.injEq, Prod.mk.injEq] at h
        rw [h.1]
    rcases convert_fromRaws raws [] none es hconv pe hpe with h' | h'
    · exact absurd h' (List.not_mem_nil pe)
    · exact ⟨h'.1, timeLe_of_elapsed h'.1⟩
  · intro cur identifier comment rest next acc lt htopic hmin hhead helapsed
    have hmin' : ¬cur.value.time.minute % 3 ≠ 0 := by omega
    simp only [convertEntries, if_neg hmin', htopic, hhead, helapsed]

/-- Witness for C3 (amended): the zero-duration day's entry runs forward,
and a backwards candidate is rejected with `EndsBeforeItStarts`. -/
theorem C3_witness :
    timeLe (⟨12, 0⟩ : Time) ⟨12, 0⟩ = true ∧
    convertEntries [rawRec 1 12 0 (.project idAA none), rawRec 2 11 0 .break_] [] none =
      .error (.EndsBeforeItStarts 1) :=
  ⟨(C3_amended_start_le_end.1 dayZeroSpan
      [⟨1, ⟨⟨1, ⟨12, 0⟩⟩, ⟨2, ⟨12, 0⟩⟩, 0, idAA, none⟩⟩] ⟨⟨0, 0⟩, 0⟩ rfl
      ⟨1, ⟨⟨1, ⟨12, 0⟩⟩, ⟨2, ⟨12, 0⟩⟩, 0, idAA, none⟩⟩ (by simp)).2,
   C3_amended_start_le_end.2 (rawRec 1 12 0 (.project idAA none)) idAA none
     [rawRec 2 11 0 .break_] (rawRec 2 11 0 .break_) [] none rfl rfl rfl rfl⟩

/-! ### Characterization of single accumulator steps -/

theorem accStep_under (st : AccumulatedTime × Option Entry) {e : Entry}
    (hu : e.identifier.is_under_hours = true) :
    accStep st e = (st.1, if e.identifier.is_travel then some e else st.2) := by
  simp [accStep, hu]

theorem accStep_travel_tng (st : AccumulatedTime × Option Entry) {e : Entry}
    (hu : e.identifier.is_under_hours = false) (ht : e.identifier.is_travel = true)
    (hg : e.identifier.is_tng = true) :
    accStep st e =
      (⟨⟨st.1.travel.tng + (e.duration : Int), st.1.travel.other⟩, st.1.work⟩, some e) := by
  simp [accStep, hu, ht, hg]

theorem accStep_travel_other (st : AccumulatedTime × Option Entry) {e : Entry}
    (hu : e.identifier.is_under_hours = false) (ht : e.identifier.is_travel = true)
    (hg : e.identifier.is_tng = false) :
    accStep st e =
      (⟨⟨st.1.travel.tng, st.1.travel.other + (e.duration : Int)⟩, st.1.work⟩, some e) := by
  simp [accStep, hu, ht, hg]

theorem accStep_work_none (st : AccumulatedTime × Option Entry) {e : Entry}
    (hu : e.identifier.is_under_hours = false) (ht : e.identifier.is_travel = false)
    (hlt : st.2 = none) :
    accStep st e = (⟨st.1.travel, st.1.work + (e.duration : Int)⟩, none) := by
  simp [accStep, hu, ht, hlt]

theorem accStep_contained (st : AccumulatedTime × Option Entry) {e t : Entry}
    (hu : e.identifier.is_under_hours = false) (ht : e.identifier.is_travel = false)
    (hlt : st.2 = some t)
    (hc : (timeLe t.start.value e.start.value && timeLe e.end_.value t.end_.value) = true) :
    accStep st e =
      (⟨if t.identifier.is_tng then
          (⟨st.1.travel.tng - (e.duration : Int), st.1.travel.other⟩ : TravelTime)
        else ⟨st.1.travel.tng, st.1.travel.other - (e.duration : Int)⟩,
        st.1.work + (e.duration : Int)⟩, some t) := by
  rcases hg : t.identifier.is_tng <;> simp [accStep, hu, ht, hlt, hc, hg]

theorem accStep_not_contained (st : AccumulatedTime × Option Entry) {e t : Entry}
    (hu : e.identifier.is_under_hours = false) (ht : e.identifier.is_travel = false)
    (hlt : st.2 = some t)
    (hc : (timeLe t.start.value e.start.value && timeLe e.end_.value t.end_.value) = false) :
    accStep st e = (⟨st.1.travel, st.1.work + (e.duration : Int)⟩, some t) := by
  simp [accStep, hu, ht, hlt, hc]

/-! ### Claim C6 (amended): bucket partition without nested containment -/

theorem durationSum_cons (p : Entry → Bool) (e : Entry) (rest : List Entry) :
    durationSum p (e :: rest) =
      (if p e then (e.duration : Int) else 0) + durationSum p rest := by
  simp only [durationSum, List.filter_cons]
  split <;> simp

/-- When the containment branch never fires, the accumulator adds each
non-under-hours entry's duration to exactly one bucket: the grand total over
the three buckets grows by exactly the non-ignored durations. -/
theorem accFold_partition :
    ∀ (L : List Entry) (a : AccumulatedTime) (lt : Option Entry),
      noNestedContainment lt L = true →
      ((L.foldl accStep (a, lt)).1).work + ((L.foldl accStep (a, lt)).1).travel.tng +
          ((L.foldl accStep (a, lt)).1).travel.other =
        a.work + a.travel.tng + a.travel.other +
          durationSum (fun e => !e.identifier.is_travel && !e.identifier.is_under_hours) L +
          durationSum (fun e => e.identifier.is_travel && !e.identifier.is_under_hours) L := by
  intro L
  induction L with
  | nil =>
    intro a lt _
    simp [durationSum]
  | cons e rest ih =>
    intro a lt h
    simp only [noNestedContainment, Bool.and_eq_true] at h
    obtain ⟨hok, hrest⟩ := h
    rw [List.foldl_cons, durationSum_cons, durationSum_cons]
    rcases hu : e.identifier.is_under_hours with _ | _
    · rcases ht : e.identifier.is_travel with _ | _
      · simp only [ht] at hrest
        rw [if_neg (by simp)] at hrest
        rcases hlt : lt with _ | t
        · rw [accStep_work_none (a, none) hu ht rfl]
          rw [hlt] at hrest
          rw [ih ⟨a.travel, a.work + (e.duration : Int)⟩ none hrest]
          simp [hu, ht] <;> ring
        · rcases hcc : (timeLe t.start.value e.start.value &&
              timeLe e.end_.value t.end_.value) with _ | _
          · rw [accStep_not_contained (a, some t) hu ht rfl hcc]
            rw [hlt] at hrest
            rw [ih ⟨a.travel, a.work + (e.duration : Int)⟩ (some t) hrest]
            simp [hu, ht] <;> ring
          · exfalso
            rw [hlt] at hok
            simp [hu, ht, hcc] at hok
      · have hrest' : noNestedContainment (some e) rest = true := by
          simpa [ht] using hrest
        rcases hg : e.identifier.is_tng with _ | _
        · rw [accStep_travel_other (a, lt) hu ht hg]
          rw [ih ⟨⟨a.travel.tng, a.travel.other + (e.duration : Int)⟩, a.work⟩ (some e) hrest']
          simp [hu, ht] <;> ring
        · rw [accStep_travel_tng (a, lt) hu ht hg]
          rw [ih ⟨⟨a.travel.tng + (e.duration : Int), a.travel.other⟩, a.work⟩ (some e) hrest']
          simp [hu, ht] <;> ring
    · rw [accStep_under (a, lt) hu]
      rw [ih a (if e.identifier.is_travel then some e else lt) hrest]
      simp [hu]

/-- Extract the conversion result and the accumulated totals from a
successful `dayTryFrom`. -/
theorem dayTryFrom_ok {raws : List (Positioned RawEntry)} {es : List (Positioned Entry)}
    {times : AccumulatedTime} (h : dayTryFrom raws = .ok (es, times)) :
    convertEntries raws [] none = .ok es ∧
      times = accumulated_time (es.map Positioned.value) := by
  unfold dayTryFrom at h
  cases hc : convertEntries raws [] none with
  | error e =>
    rw [hc] at h
    exact Except.noConfusion h
  | ok es' =>
    rw [hc] at h
    simp only [Except.ok.injEq, Prod.mk.injEq] at h
    obtain ⟨h1, h2⟩ := h
    subst h1
    exact ⟨rfl, h2.symm⟩

/-- C6 (amended): for every successfully validated day whose entries contain
no nested containment, the bucket totals partition the non-ignored minutes:
`work + travel.tng + travel.other` equals the total duration of entries that
are neither travel nor under-hours plus the total duration of travel entries
that are not under-hours. -/
theorem C6_amended_round_trip :
    ∀ (raws : List (Positioned RawEntry)) (es : List (Positioned Entry))
      (times : AccumulatedTime),
      dayTryFrom raws = .ok (es, times) →
      noNestedContainment none (es.map Positioned.value) = true →
      times.work + times.travel.tng + times.travel.other =
        durationSum (fun e => !e.identifier.is_travel && !e.identifier.is_under_hours)
            (es.map Positioned.value) +
          durationSum (fun e => e.identifier.is_travel && !e.identifier.is_under_hours)
            (es.map Positioned.value) := by
  intro raws es times h hnc
  obtain ⟨-, htimes⟩ := dayTryFrom_ok h
  subst htimes
  have hp := accFold_partition (es.map Positioned.value) AccumulatedTime.zero none hnc
  simpa [accumulated_time, AccumulatedTime.zero] using hp


/-- Witness for C6 (amended) on the validated scenario-A day. -/
theorem C6_witness :
    (⟨⟨30, 0⟩, 120⟩ : AccumulatedTime).work + (⟨⟨30, 0⟩, 120⟩ : AccumulatedTime).travel.tng +
        (⟨⟨30, 0⟩, 120⟩ : AccumulatedTime).travel.other =
      durationSum (fun e => !e.identifier.is_travel && !e.identifier.is_under_hours)
          (scenarioAConverted.map Positioned.value) +
        durationSum (fun e => e.identifier.is_travel && !e.identifier.is_under_hours)
          (scenarioAConverted.map Positioned.value) :=
  C6_amended_round_trip scenarioA scenarioAConverted ⟨⟨30, 0⟩, 120⟩ rfl rfl

/-! ### The converter's ordering guarantees (used for claim C2) -/

/-- A successful conversion only appends to the accepted prefix. -/
theorem convert_shape :
    ∀ (raws : List (Positioned RawEntry)) (acc : List (Positioned Entry)) (lt : Option Nat)
      (L : List (Positioned Entry)),
      convertEntries raws acc lt = .ok L → ∃ S, L = acc ++ S := by
  intro raws
  induction raws with
  | nil =>
    intro acc lt L h
    simp only [convertEntries, Except.ok.injEq] at h
    exact ⟨[], by rw [← h]; simp⟩
  | cons cur rest ih =>
    intro acc lt L h
    by_cases hmin : cur.value.time.minute % 3 ≠ 0
    · simp only [convertEntries, if_pos hmin] at h
      exact Except.noConfusion h
    · cases htop : cur.value.topic with
      | break_ =>
        simp only [convertEntries, if_neg hmin, htop] at h
        exact ih acc lt L h
      | project id cm =>
        cases hhead : rest.head? with
        | none =>
          simp only [convertEntries, if_neg hmin, htop, hhead] at h
          exact Except.noConfusion h
        | some next =>
          cases helapsed : next.value.time.elapsed cur.value.time with
          | none =>
            simp only [convertEntries, if_neg hmin, htop, hhead, helapsed] at h
            exact Except.noConfusion h
          | some d =>
            cases hacc : acc.getLast? with
            | none =>
              simp only [convertEntries, if_neg hmin, htop, hhead, helapsed, hacc] at h
              obtain ⟨S, hS⟩ := ih _ _ L h
              exact ⟨⟨cur.line, mkEntry cur.line cur.value.time id cm next d⟩ :: S,
                by simpa using hS⟩
            | some previous =>
              cases hvo : validate_ordering
                  (mkEntry cur.line cur.value.time id cm next d) previous.value
                  (((if (mkEntry cur.line cur.value.time id cm next d).identifier.is_travel then
                        some acc.length else lt).bind fun idx => acc[idx]?).map
                    Positioned.value)
                  (decide ((if (mkEntry cur.line cur.value.time id cm next d).identifier.is_travel
                      then some acc.length else lt) = some (acc.length - 1))) with
              | error e =>
                simp only [convertEntries, if_neg hmin, htop, hhead, helapsed, hacc, hvo] at h
                exact Except.noConfusion h
              | ok u =>
                simp only [convertEntries, if_neg hmin, htop, hhead, helapsed, hacc, hvo] at h
                obtain ⟨S, hS⟩ := ih _ _ L h
                exact ⟨⟨cur.line, mkEntry cur.line cur.value.time id cm next d⟩ :: S,
                  by simpa using hS⟩

/-- The empty accepted prefix with no travel index satisfies the invariant. -/
theorem ltInv_nil : ltInv [] none := by
  intro pe hpe
  exact absurd hpe (List.not_mem_nil pe)

/-- Appending a travel entry moves the travel index to it. -/
theorem ltInv_push_travel (acc : List (Positioned Entry)) (pe : Positioned Entry)
    (h : pe.value.identifier.is_travel = true) :
    ltInv (acc ++ [pe]) (some acc.length) := by
  refine ⟨pe, List.getElem?_concat_length acc pe, h, ?_⟩
  intro qe hqe
  rw [List.drop_eq_nil_of_le (by simp)] at hqe
  exact absurd hqe (List.not_mem_nil qe)

/-- Appending a non-travel entry keeps the travel index. -/
theorem ltInv_push_nontravel (acc : List (Positioned Entry)) (lt : Option Nat)
    (pe : Positioned Entry) (hInv : ltInv acc lt)
    (h : pe.value.identifier.is_travel = false) :
    ltInv (acc ++ [pe]) lt := by
  cases lt with
  | none =>
    intro qe hqe
    rcases List.mem_append.mp hqe with h' | h'
    · exact hInv qe h'
    · have : qe = pe := by simpa using h'
      rw [this]
      exact h
  | some i =>
    obtain ⟨pe', hget, htr, hafter⟩ := hInv
    have hi : i < acc.length := by
      rcases List.getElem?_eq_some_iff.mp hget with ⟨hlt, -⟩
      exact hlt
    refine ⟨pe', ?_, htr, ?_⟩
    · rw [List.getElem?_append_left hi]
      exact hget
    · intro qe hqe
      rw [List.drop_append_of_le_length (by omega)] at hqe
      rcases List.mem_append.mp hqe with h' | h'
      · exact hafter qe h'
      · have : qe = pe := by simpa using h'
        rw [this]
        exact h

/-- Under the travel-index invariant, the ordering check the converter makes
(travel entry looked up by index, pointer equality as index equality) equals
the check stated against entries: the travel argument is dropped for a travel
candidate, and the pointer-equality flag is "the previous accepted entry is
itself the most recent travel entry". -/
theorem convert_step_validate (acc : List (Positioned Entry)) (lt : Option Nat)
    (previous : Positioned Entry) (ne : Entry)
    (hInv : ltInv acc lt) (hlast : acc.getLast? = some previous) :
    validate_ordering ne previous.value
        (((if ne.identifier.is_travel then some acc.length else lt).bind
          fun i => acc[i]?).map Positioned.value)
        (decide ((if ne.identifier.is_travel then some acc.length else lt) =
          some (acc.length - 1))) =
      validate_ordering ne previous.value
        (if ne.identifier.is_travel then none
          else (lt.bind fun i => acc[i]?).map Positioned.value)
        (!ne.identifier.is_travel && previous.value.identifier.is_travel) := by
  have hacc : acc ≠ [] := by
    intro h
    rw [h] at hlast
    exact absurd hlast (by simp)
  have hlen : 1 ≤ acc.length := by
    cases acc with
    | nil => exact absurd rfl hacc
    | cons a l => simp
  cases ht : ne.identifier.is_travel with
  | true =>
    have hnone : acc[acc.length]? = none := List.getElem?_eq_none le_rfl
    simp [ht, hnone, validate_ordering_none_eq]
  | false =>
    cases lt with
    | none => simp [ht, validate_ordering_none_eq]
    | some i =>
      obtain ⟨pe', hget, htr, hafter⟩ := hInv
      have hi : i < acc.length := by
        rcases List.getElem?_eq_some_iff.mp hget with ⟨hlt, -⟩
        exact hlt
      have hprev : acc[acc.length - 1]? = some previous := by
        rw [← List.getLast?_eq_getElem?]
        exact hlast
      by_cases heq : i = acc.length - 1
      · subst heq
        have hpe : pe' = previous := by
          rw [hget] at hprev
          injection hprev
        have hflag : previous.value.identifier.is_travel = true := by
          rw [← hpe]
          exact htr
        simp [ht, hflag]
      · have hmem : previous ∈ acc.drop (i + 1) := by
          have hidx : (acc.drop (i + 1))[acc.length - 1 - (i + 1)]? = some previous := by
            rw [List.getElem?_drop]
            have harith : i + 1 + (acc.length - 1 - (i + 1)) = acc.length - 1 := by omega
            rw [harith]
            exact hprev
          rcases List.getElem?_eq_some_iff.mp hidx with ⟨hlt2, heq2⟩
          rw [← heq2]
          exact List.getElem_mem hlt2
        have hflag : previous.value.identifier.is_travel = false := hafter previous hmem
        simp [ht, heq, hflag]

/-- A successful conversion's newly accepted entries pass `stepOK` at every
step, against the previous-entry / most-recent-travel state the converter
threads through its scan. -/
theorem convert_chainOK :
    ∀ (raws : List (Positioned RawEntry)) (acc : List (Positioned Entry)) (lt : Option Nat)
      (L : List (Positioned Entry)),
      convertEntries raws acc lt = .ok L →
      ltInv acc lt →
      chainOK ((acc.getLast?).map Positioned.value)
        ((lt.bind fun i => acc[i]?).map Positioned.value)
        ((L.drop acc.length).map Positioned.value) = true := by
  intro raws
  induction raws with
  | nil =>
    intro acc lt L h hInv
    simp only [convertEntries, Except.ok.injEq] at h
    subst h
    simp [List.drop_length, chainOK]
  | cons cur rest ih =>
    intro acc lt L h hInv
    by_cases hmin : cur.value.time.minute % 3 ≠ 0
    · simp only [convertEntries, if_pos hmin] at h
      exact Except.noConfusion h
    · cases htop : cur.value.topic with
      | break_ =>
        simp only [convertEntries, if_neg hmin, htop] at h
        exact ih acc lt L h hInv
      | project id cm =>
        cases hhead : rest.head? with
        | none =>
          simp only [convertEntries, if_neg hmin, htop, hhead] at h
          exact Except.noConfusion h
        | some next =>
          cases helapsed : next.value.time.elapsed cur.value.time with
          | none =>
            simp only [convertEntries, if_neg hmin, htop, hhead, helapsed] at h
            exact Except.noConfusion h
          | some d =>
            have hInv' : ltInv (acc ++ [⟨cur.line, mkEntry cur.line cur.value.time id cm next d⟩])
                (if (mkEntry cur.line cur.value.time id cm next d).identifier.is_travel then
                  some acc.length else lt) := by
              cases ht : (mkEntry cur.line cur.value.time id cm next d).identifier.is_travel with
              | true =>
                rw [if_pos rfl]
                exact ltInv_push_travel acc _ ht
              | false =>
                rw [if_neg (by simp)]
                exact ltInv_push_nontravel acc lt _ hInv ht
            have harg :
                (((if (mkEntry cur.line cur.value.time id cm next d).identifier.is_travel then
                    some acc.length else lt).bind
                  fun i => (acc ++ [⟨cur.line, mkEntry cur.line cur.value.time id cm next d⟩])[i]?).map
                    Positioned.value) =
                  (if (mkEntry cur.line cur.value.time id cm next d).identifier.is_travel then
                    some (mkEntry cur.line cur.value.time id cm next d)
                  else ((lt.bind fun i => acc[i]?).map Positioned.value)) := by
              cases ht : (mkEntry cur.line cur.value.time id cm next d).identifier.is_travel with
              | true => simp [ht, List.getElem?_concat_length]
              | false =>
                cases lt with
                | none => simp [ht]
                | some i =>
                  obtain ⟨pe', hget, -, -⟩ := hInv
                  have hi : i < acc.length := by
                    rcases List.getElem?_eq_some_iff.mp hget with ⟨hlt, -⟩
                    exact hlt
                  simp [ht, List.getElem?_append_left hi]
            cases hacc : acc.getLast? with
            | none =>
              have haccnil : acc = [] := List.getLast?_eq_none_iff.mp hacc
              subst haccnil
              simp only [convertEntries, if_neg hmin, htop, hhead, helapsed, hacc] at h
              obtain ⟨S, hS⟩ := convert_shape rest _ _ L h
              have hdrop0 : L.drop ([] : List (Positioned Entry)).length =
                  ⟨cur.line, mkEntry cur.line cur.value.time id cm next d⟩ :: S := by
                rw [hS]
                simp
              have hih := ih _ _ L h hInv'
              rw [hS] at hih
              rw [List.drop_left] at hih
              rw [hdrop0]
              simp only [List.map_cons, List.getLast?_nil, Option.map_none, chainOK]
              rw [Bool.and_eq_true]
              constructor
              · rfl
              · rw [List.getLast?_concat] at hih
                rw [harg] at hih
                exact hih
            | some previous =>
              cases hvo : validate_ordering
                  (mkEntry cur.line cur.value.time id cm next d) previous.value
                  (((if (mkEntry cur.line cur.value.time id cm next d).identifier.is_travel then
                        some acc.length else lt).bind fun idx => acc[idx]?).map
                    Positioned.value)
                  (decide ((if (mkEntry cur.line cur.value.time id cm next d).identifier.is_travel
                      then some acc.length else lt) = some (acc.length - 1))) with
              | error e =>
                simp only [convertEntries, if_neg hmin, htop, hhead, helapsed, hacc, hvo] at h
                exact Except.noConfusion h
              | ok u =>
                simp only [convertEntries, if_neg hmin, htop, hhead, helapsed, hacc, hvo] at h
                obtain ⟨S, hS⟩ := convert_shape rest _ _ L h
                have hdropacc : L.drop acc.length =
                    ⟨cur.line, mkEntry cur.line cur.value.time id cm next d⟩ :: S := by
                  rw [hS, List.append_assoc, List.drop_left]
                  rfl
                have hih := ih _ _ L h hInv'
                rw [hS, List.drop_left] at hih
                rw [hdropacc]
                simp only [List.map_cons, Option.map_some, chainOK]
                rw [Bool.and_eq_true]
                constructor
                · have hvo2 := (convert_step_validate acc lt previous
                    (mkEntry cur.line cur.value.time id cm next d) hInv hacc).symm.trans hvo
                  simp only [stepOK, Option.map_some', hvo2]
                · rw [List.getLast?_concat] at hih
                  rw [harg] at hih
                  exact hih

/-! ### What passing `stepOK` tells us about a candidate -/

/-- A travel candidate passes only under the plain sequential rule. -/
theorem stepOK_travel {p e : Entry} {lt : Option Entry} (ht : e.identifier.is_travel = true)
    (h : stepOK (some p) lt e = true) : timeLe p.end_.value e.start.value = true := by
  rcases hle : timeLe p.end_.value e.start.value with _ | _
  · exfalso
    simp [stepOK, ht, validate_ordering_none_eq, hle] at h
  · rfl

/-- A non-travel candidate with no travel span passes only under the plain
sequential rule. -/
theorem stepOK_no_travel {p e : Entry} (ht : e.identifier.is_travel = false)
    (h : stepOK (some p) none e = true) : timeLe p.end_.value e.start.value = true := by
  rcases hle : timeLe p.end_.value e.start.value with _ | _
  · exfalso
    simp [stepOK, ht, validate_ordering_none_eq, hle] at h
  · rfl

/-- A non-travel candidate validated against a travel span does not start
before that span, and either the previous entry is the travel span itself or
the plain sequential rule holds. -/
theorem stepOK_some {p e t : Entry} (ht : e.identifier.is_travel = false)
    (h : stepOK (some p) (some t) e = true) :
    timeLt e.start.value t.start.value = false ∧
      (p.identifier.is_travel = true ∨ timeLe p.end_.value e.start.value = true) := by
  rcases h1 : timeLt e.start.value t.start.value with _ | _ <;>
    rcases h2 : timeLt e.start.value t.end_.value with _ | _ <;>
      rcases h3 : timeLt t.end_.value e.end_.value with _ | _ <;>
        rcases hp : p.identifier.is_travel with _ | _ <;>
          rcases hle : timeLe p.end_.value e.start.value with _ | _ <;>
            simp_all [stepOK, ht, validate_ordering_some_eq]

/-- The second component of an accumulator step is the updated travel
entry. -/
theorem accStep_snd (st : AccumulatedTime × Option Entry) (e : Entry) :
    (accStep st e).2 = if e.identifier.is_travel then some e else st.2 := rfl

/-- The reclassification frontier never exceeds the start of the next
validated candidate. -/
theorem lb_le_start {p t e : Entry} (ht : e.identifier.is_travel = false)
    (hstep : stepOK (some p) (some t) e = true)
    (hts : t.start.value.minute < 60) (hpm : p.end_.value.minute < 60) :
    lbOf (some p) t ≤ mins e.start.value := by
  obtain ⟨h1, hor⟩ := stepOK_some ht hstep
  have hlb : lbOf (some p) t =
      if p.identifier.is_travel = true then mins t.start.value else mins p.end_.value := rfl
  rw [hlb]
  rcases hp : p.identifier.is_travel with _ | _
  · rcases hor with hor | hor
    · rw [hp] at hor
      exact absurd hor (by simp)
    · rw [if_neg (by simp [hp])]
      exact mins_le_of_timeLe hor hpm
  · rw [if_pos (by simp [hp])]
    exact mins_le_of_timeLe (timeLt_false_iff.mp h1) hts

/-- `lbOf` at a non-travel previous entry. -/
theorem lbOf_nontravel {e t : Entry} (ht : e.identifier.is_travel = false) :
    lbOf (some e) t = mins e.end_.value := by
  have h : lbOf (some e) t =
      if e.identifier.is_travel = true then mins t.start.value else mins e.end_.value := rfl
  rw [h, if_neg (by simp [ht])]

/-- `lbOf` at a travel previous entry. -/
theorem lbOf_travel {e t : Entry} (ht : e.identifier.is_travel = true) :
    lbOf (some e) t = mins t.start.value := by
  have h : lbOf (some e) t =
      if e.identifier.is_travel = true then mins t.start.value else mins e.end_.value := rfl
  rw [h, if_pos (by simp [ht])]

/-- One step of the accumulator preserves the invariant `J`, given the
ordering facts validated by the converter and the per-entry facts. -/
theorem J_step {prev? lt : Option Entry} {a : AccumulatedTime} {e : Entry}
    (hstep : stepOK prev? lt e = true) (hok : entryOK e) (hJ : J prev? lt a) :
    J (some e) (if e.identifier.is_travel then some e else lt) ((accStep (a, lt) e).1) := by
  obtain ⟨⟨hw, htng, hoth⟩, hprevm, hltc⟩ := hJ
  obtain ⟨hel, hm1, hm2, hnb⟩ := hok
  have hd : mins e.start.value + (e.duration : Int) = mins e.end_.value := elapsed_mins hel
  have hdnn : (0 : Int) ≤ (e.duration : Int) := Int.ofNat_nonneg e.duration
  rcases hu : e.identifier.is_under_hours with _ | _
  · rcases ht : e.identifier.is_travel with _ | _
    · rcases hlt : lt with _ | t
      · -- ordinary entry, no travel span
        rw [accStep_work_none (a, none) hu ht rfl, if_neg (by simp)]
        refine ⟨⟨?_, htng, hoth⟩, ?_, ?_⟩
        · show (0 : Int) ≤ a.work + (e.duration : Int)
          omega
        · intro q hq
          injection hq with hq
          rw [← hq]
          exact hm2
        · intro t' ht'
          exact Option.noConfusion ht'
      · -- ordinary entry, travel span current
        obtain ⟨⟨p, hprev⟩, hokt, htt, hbound⟩ := hltc t hlt
        obtain ⟨helt, hts, hte, hnbt⟩ := hokt
        rw [hprev, hlt] at hstep
        have hpm : p.end_.value.minute < 60 := hprevm p hprev
        have hlb : lbOf (some p) t ≤ mins e.start.value := lb_le_start ht hstep hts hpm
        rw [hprev] at hbound
        rcases hc : (timeLe t.start.value e.start.value &&
            timeLe e.end_.value t.end_.value) with _ | _
        · -- not contained: only work grows
          rw [accStep_not_contained (a, some t) hu ht rfl hc, if_neg (by simp)]
          refine ⟨⟨?_, htng, hoth⟩, ?_, ?_⟩
          · show (0 : Int) ≤ a.work + (e.duration : Int)
            omega
          · intro q hq
            injection hq with hq
            rw [← hq]
            exact hm2
          · intro t' ht'
            injection ht' with h2
            subst h2
            refine ⟨⟨e, rfl⟩, ⟨helt, hts, hte, hnbt⟩, htt, ?_⟩
            rw [lbOf_nontravel ht]
            show mins t.end_.value - mins e.end_.value ≤ bucketOf t a.travel
            omega
        · -- contained: reclassify into work, subtract from the travel bucket
          have hc2 : timeLe e.end_.value t.end_.value = true := by
            rw [Bool.and_eq_true] at hc
            exact hc.2
          have hce : mins e.end_.value ≤ mins t.end_.value := mins_le_of_timeLe hc2 hm2
          rw [accStep_contained (a, some t) hu ht rfl hc, if_neg (by simp)]
          rcases hg : t.identifier.is_tng with _ | _
          · rw [if_neg (by simp [hg])]
            have hbt : bucketOf t a.travel = a.travel.other := by simp [bucketOf, hg]
            rw [hbt] at hbound
            refine ⟨⟨?_, htng, ?_⟩, ?_, ?_⟩
            · show (0 : Int) ≤ a.work + (e.duration : Int)
              omega
            · show (0 : Int) ≤ a.travel.other - (e.duration : Int)
              omega
            · intro q hq
              injection hq with hq
              rw [← hq]
              exact hm2
            · intro t' ht'
              injection ht' with h2
              subst h2
              refine ⟨⟨e, rfl⟩, ⟨helt, hts, hte, hnbt⟩, htt, ?_⟩
              rw [lbOf_nontravel ht]
              have hbt' : bucketOf t
                  (⟨a.travel.tng, a.travel.other - (e.duration : Int)⟩ : TravelTime) =
                  a.travel.other - (e.duration : Int) := by
                simp [bucketOf, hg]
              rw [hbt']
              omega
          · rw [if_pos (by simp [hg])]
            have hbt : bucketOf t a.travel = a.travel.tng := by simp [bucketOf, hg]
            rw [hbt] at hbound
            refine ⟨⟨?_, ?_, hoth⟩, ?_, ?_⟩
            · show (0 : Int) ≤ a.work + (e.duration : Int)
              omega
            · show (0 : Int) ≤ a.travel.tng - (e.duration : Int)
              omega
            · intro q hq
              injection hq with hq
              rw [← hq]
              exact hm2
            · intro t' ht'
              injection ht' with h2
              subst h2
              refine ⟨⟨e, rfl⟩, ⟨helt, hts, hte, hnbt⟩, htt, ?_⟩
              rw [lbOf_nontravel ht]
              have hbt' : bucketOf t
                  (⟨a.travel.tng - (e.duration : Int), a.travel.other⟩ : TravelTime) =
                  a.travel.tng - (e.duration : Int) := by
                simp [bucketOf, hg]
              rw [hbt']
              omega
    · -- travel entry: it becomes the current travel span with a fresh bucket
      rcases hg : e.identifier.is_tng with _ | _
      · rw [accStep_travel_other (a, lt) hu ht hg, if_pos (by simp [ht])]
        refine ⟨⟨hw, htng, ?_⟩, ?_, ?_⟩
        · show (0 : Int) ≤ a.travel.other + (e.duration : Int)
          omega
        · intro q hq
          injection hq with hq
          rw [← hq]
          exact hm2
        · intro t' ht'
          injection ht' with h2
          subst h2
          refine ⟨⟨e, rfl⟩, ⟨hel, hm1, hm2, hnb⟩, ht, ?_⟩
          rw [lbOf_travel ht]
          have hbt : bucketOf e
              (⟨a.travel.tng, a.travel.other + (e.duration : Int)⟩ : TravelTime) =
              a.travel.other + (e.duration : Int) := by
            simp [bucketOf, hg]
          rw [hbt]
          omega
      · rw [accStep_travel_tng (a, lt) hu ht hg, if_pos (by simp [ht])]
        refine ⟨⟨hw, ?_, hoth⟩, ?_, ?_⟩
        · show (0 : Int) ≤ a.travel.tng + (e.duration : Int)
          omega
        · intro q hq
          injection hq with hq
          rw [← hq]
          exact hm2
        · intro t' ht'
          injection ht' with h2
          subst h2
          refine ⟨⟨e, rfl⟩, ⟨hel, hm1, hm2, hnb⟩, ht, ?_⟩
          rw [lbOf_travel ht]
          have hbt : bucketOf e
              (⟨a.travel.tng + (e.duration : Int), a.travel.other⟩ : TravelTime) =
              a.travel.tng + (e.duration : Int) := by
            simp [bucketOf, hg]
          rw [hbt]
          omega
  · -- under-hours entry: ignored (it cannot be travel by `entryOK`)
    have ht : e.identifier.is_travel = false := by
      rcases htx : e.identifier.is_travel with _ | _
      · rfl
      · exact absurd ⟨htx, hu⟩ hnb
    rw [accStep_under (a, lt) hu, if_neg (by simp [ht])]
    refine ⟨⟨hw, htng, hoth⟩, ?_, ?_⟩
    · intro q hq
      injection hq with hq
      rw [← hq]
      exact hm2
    · intro t ht'
      obtain ⟨⟨p, hprev⟩, hokt, htt, hbound⟩ := hltc t ht'
      obtain ⟨helt, hts, hte, hnbt⟩ := hokt
      rw [hprev, ht'] at hstep
      have hpm : p.end_.value.minute < 60 := hprevm p hprev
      have hlb : lbOf (some p) t ≤ mins e.start.value := lb_le_start ht hstep hts hpm
      rw [hprev] at hbound
      refine ⟨⟨e, rfl⟩, ⟨helt, hts, hte, hnbt⟩, htt, ?_⟩
      rw [lbOf_nontravel ht]
      show mins t.end_.value - mins e.end_.value ≤ bucketOf t a.travel
      omega


/-- The accumulator fold keeps all buckets non-negative at every prefix,
starting from any state satisfying the invariant `J`, on an entry list that
passed the converter's per-step ordering checks. -/
theorem accFold_nonneg :
    ∀ (L : List Entry) (prev? lt : Option Entry) (a : AccumulatedTime),
      chainOK prev? lt L = true →
      (∀ e ∈ L, entryOK e) →
      J prev? lt a →
      ∀ n, nonneg3 ((List.foldl accStep (a, lt) (L.take n)).1) := by
  intro L
  induction L with
  | nil =>
    intro prev? lt a _ _ hJ n
    simp only [List.take_nil, List.foldl_nil]
    exact hJ.1
  | cons e rest ih =>
    intro prev? lt a hchain hok hJ n
    simp only [chainOK, Bool.and_eq_true] at hchain
    obtain ⟨hstep, hchain'⟩ := hchain
    have hoke : entryOK e := hok e (List.mem_cons_self e rest)
    have hok' : ∀ x ∈ rest, entryOK x := fun x hx => hok x (List.mem_cons_of_mem e hx)
    have hJ' := J_step hstep hoke hJ
    cases n with
    | zero =>
      simp only [List.take_zero, List.foldl_nil]
      exact hJ.1
    | succ m =>
      rw [List.take_succ_cons, List.foldl_cons]
      have hpair : accStep (a, lt) e =
          ((accStep (a, lt) e).1, if e.identifier.is_travel then some e else lt) := by
        rw [← accStep_snd (a, lt) e]
      rw [hpair]
      exact ih (some e) (if e.identifier.is_travel then some e else lt)
        ((accStep (a, lt) e).1) hchain' hok' hJ' m

/-- C2 (amended): for every raw-record day whose validation succeeds, as long
as every record's minute field is in range and no project identifier is
simultaneously travel (ends with `"Fa"`) and under-hours (starts with
`"Ustd"`), the accumulator never drives a bucket negative: every prefix of
the fold, and the final totals, have non-negative `work`, `travel.tng` and
`travel.other` — in particular the containment-reclassification subtraction
never exceeds what was previously added to the bucket. -/
theorem C2_amended_no_underflow :
    ∀ (raws : List (Positioned RawEntry)) (es : List (Positioned Entry))
      (times : AccumulatedTime),
      dayTryFrom raws = .ok (es, times) →
      (raws.all fun r => decide (r.value.time.minute < 60)) = true →
      (raws.all fun r => noTravelUnderHours r.value.topic) = true →
      (∀ n, nonneg3 (accumulated_time ((es.map Positioned.value).take n))) ∧
        nonneg3 times := by
  intro raws es times h hminsb hidsb
  have hmins : ∀ r ∈ raws, r.value.time.minute < 60 := by
    intro r hr
    have := List.all_eq_true.mp hminsb r hr
    exact of_decide_eq_true this
  have hids : ∀ r ∈ raws, noTravelUnderHours r.value.topic = true :=
    fun r hr => List.all_eq_true.mp hidsb r hr
  obtain ⟨hconv, htimes⟩ := dayTryFrom_ok h
  have hok : ∀ x ∈ es.map Positioned.value, entryOK x := by
    intro x hx
    obtain ⟨pe, hpe, hval⟩ := List.mem_map.mp hx
    rcases convert_fromRaws raws [] none es hconv pe hpe with h' | h'
    · exact absurd h' (List.not_mem_nil pe)
    · obtain ⟨h1, ⟨r1, hr1, he1⟩, ⟨r2, hr2, he2⟩, ⟨r3, hr3, c3, he3⟩⟩ := h'
      subst hval
      refine ⟨h1, ?_, ?_, ?_⟩
      · rw [← he1]
        exact hmins r1 hr1
      · rw [← he2]
        exact hmins r2 hr2
      · have h4 := hids r3 hr3
        rw [he3] at h4
        have h5 : (!(pe.value.identifier.is_travel && pe.value.identifier.is_under_hours))
            = true := h4
        intro hcon
        obtain ⟨ha, hb⟩ := hcon
        rw [ha, hb] at h5
        simp at h5
  have hchain := convert_chainOK raws [] none es hconv ltInv_nil
  simp at hchain
  have hJ0 : J none none AccumulatedTime.zero := by
    refine ⟨⟨le_refl 0, le_refl 0, le_refl 0⟩, ?_, ?_⟩
    · intro p hp
      exact Option.noConfusion hp
    · intro t ht
      exact Option.noConfusion ht
  have hmain := accFold_nonneg (es.map Positioned.value) none none AccumulatedTime.zero
    hchain hok hJ0
  constructor
  · intro n
    exact hmain n
  · rw [htimes]
    have hfin := hmain (es.map Positioned.value).length
    rw [List.take_length] at hfin
    exact hfin

/-- Witness for C2 (amended) on the validated scenario-A day. -/
theorem C2_witness :
    nonneg3 (accumulated_time ((scenarioAConverted.map Positioned.value).take 3)) ∧
      nonneg3 (⟨⟨30, 0⟩, 120⟩ : AccumulatedTime) :=
  ⟨(C2_amended_no_underflow scenarioA scenarioAConverted ⟨⟨30, 0⟩, 120⟩ rfl rfl rfl).1 3,
   (C2_amended_no_underflow scenarioA scenarioAConverted ⟨⟨30, 0⟩, 120⟩ rfl rfl rfl).2⟩

end Timesheet
